import Mathlib

/-!
Verification development for the polar-plant EC dashboard (`main.py`).

The program loads per-school environment CSV files and a multi-sheet growth
spreadsheet, normalizes Korean file names to Unicode NFC before substring
matching against the fixed school table `SCHOOL_EC`, and aggregates growth
records by target EC to pick the EC with the greatest mean fresh weight.

Strings are modelled as lists of Unicode code points (`List Nat`).  The
program's `normalize` calls `unicodedata.normalize("NFC", text)`; since all
identifier text is Hangul (plus ASCII), NFC is modelled by the Hangul part
of the Unicode canonical composition algorithm (UAX #15): compose a leading
consonant jamo followed by a vowel jamo into an LV syllable, and an LV
syllable followed by a trailing consonant jamo into an LVT syllable.  All
other code points (ASCII etc.) are inert.  `decomposeHangul` is the matching
canonical decomposition (NFD) used to state canonical equivalence.

Numeric cell values are modelled as rationals, file parsing is abstracted
(a directory entry carries its already-parsed tabular content), and a
missing directory is `Option.none`.  Fallible aggregation returns `Except`.
-/

namespace PolarPlant

/-- Hangul leading-consonant jamo (choseong), U+1100..U+1112. -/
def isL (c : Nat) : Bool := 4352 ≤ c && c ≤ 4370

/-- Hangul vowel jamo (jungseong), U+1161..U+1175. -/
def isV (c : Nat) : Bool := 4449 ≤ c && c ≤ 4469

/-- Hangul trailing-consonant jamo (jongseong), U+11A8..U+11C2. -/
def isT (c : Nat) : Bool := 4520 ≤ c && c ≤ 4546

/-- Precomposed Hangul syllable, U+AC00..U+D7A3. -/
def isSyl (c : Nat) : Bool := 44032 ≤ c && c < 55204

/-- Precomposed Hangul syllable with no trailing consonant (LV type). -/
def isLVSyl (c : Nat) : Bool := isSyl c && (c - 44032) % 28 == 0

/-- One step of pairwise canonical composition: can `b` combine onto `a`? -/
def compPairB (a b : Nat) : Bool := (isL a && isV b) || (isLVSyl a && isT b)

/-- Canonical composition scan with a pending (last emitted) code point. -/
def composeAux (p : Nat) : List Nat → List Nat
  | [] => [p]
  | c :: rest =>
    if isL p && isV c then
      composeAux (44032 + ((p - 4352) * 21 + (c - 4449)) * 28) rest
    else if isLVSyl p && isT c then
      composeAux (p + (c - 4519)) rest
    else
      p :: composeAux c rest

/-- Hangul canonical composition of a code-point sequence (the effect of
Unicode NFC on Hangul-plus-inert text). -/
def composeHangul : List Nat → List Nat
  | [] => []
  | c :: rest => composeAux c rest

/-- Model of `normalize` from `main.py`:
`unicodedata.normalize("NFC", text)` on the program's Hangul/ASCII domain. -/
def normalize (text : List Nat) : List Nat := composeHangul text

/-- Canonical (NFD) decomposition of one code point: a precomposed Hangul
syllable splits into its jamo, everything else is inert. -/
def decomposeChar (c : Nat) : List Nat :=
  if 44032 ≤ c ∧ c < 55204 then
    if (c - 44032) % 28 = 0 then
      [4352 + (c - 44032) / 588, 4449 + ((c - 44032) % 588) / 28]
    else
      [4352 + (c - 44032) / 588, 4449 + ((c - 44032) % 588) / 28,
       4519 + (c - 44032) % 28]
  else [c]

/-- Canonical (NFD) decomposition of a code-point sequence. -/
def decomposeHangul : List Nat → List Nat
  | [] => []
  | c :: rest => decomposeChar c ++ decomposeHangul rest

/-- Does `s` start with `pat`?  (Helper for substring containment.) -/
def startsWithCp : List Nat → List Nat → Bool
  | _, [] => true
  | [], _ :: _ => false
  | a :: as, b :: bs => a == b && startsWithCp as bs

/-- Substring containment, modelling Python's `pat in s`. -/
def containsCp : List Nat → List Nat → Bool
  | [], pat => pat == []
  | s@(_ :: rest), pat => startsWithCp s pat || containsCp rest pat

/-- ASCII lower-casing of one code point, modelling `str.lower()` on the
extension characters that matter here. -/
def toLowerCp (c : Nat) : Nat := if 65 ≤ c && c ≤ 90 then c + 32 else c

/-- Does the file name have (case-insensitively) the `.csv` extension?
Models `file.suffix.lower() == ".csv"`. -/
def endsWithCsv (name : List Nat) : Bool :=
  startsWithCp ((name.map toLowerCp).reverse) [118, 115, 99, 46]

/-- Does the file name have (case-insensitively) the `.xlsx` extension?
Models `file.suffix.lower() == ".xlsx"`. -/
def endsWithXlsx (name : List Nat) : Bool :=
  startsWithCp ((name.map toLowerCp).reverse) [120, 115, 108, 120, 46]

/-- Code points of "송도고". -/
def songdo : List Nat := [49569, 46020, 44256]

/-- Code points of "하늘고". -/
def haneul : List Nat := [54616, 45720, 44256]

/-- Code points of "아라고". -/
def ara : List Nat := [50500, 46972, 44256]

/-- Code points of "동산고". -/
def dongsan : List Nat := [46041, 49328, 44256]

/-- The keys of the `SCHOOL_EC` dict, in declaration order. -/
def SCHOOLS : List (List Nat) := [songdo, haneul, ara, dongsan]

/-- The `SCHOOL_EC` dict of `main.py` as a lookup (missing key = `none`,
which models the `NaN` produced by `Series.map` on unknown keys). -/
def SCHOOL_EC (s : List Nat) : Option ℚ :=
  if s = songdo then some 1
  else if s = haneul then some 2
  else if s = ara then some 4
  else if s = dongsan then some 8
  else none

/-- A parsed row of an environment CSV file (numeric fields as rationals). -/
structure RawEnvRow where
  temperature : ℚ
  humidity : ℚ
  ph : ℚ
  ec : ℚ
deriving DecidableEq

/-- An environment row after the loader stamps `df["학교"] = school`. -/
structure EnvRow where
  temperature : ℚ
  humidity : ℚ
  ph : ℚ
  ec : ℚ
  school : List Nat
deriving DecidableEq

/-- Stamp a raw environment row with its school tag. -/
def stampEnv (s : List Nat) (r : RawEnvRow) : EnvRow :=
  ⟨r.temperature, r.humidity, r.ph, r.ec, s⟩

/-- A parsed row of one sheet of the growth spreadsheet. -/
structure RawGrowthRow where
  leafCount : ℚ
  shootLength : ℚ
  freshWeight : ℚ
deriving DecidableEq

/-- A growth row after the loader stamps `df["학교"] = sheet`. -/
structure GrowthRow where
  leafCount : ℚ
  shootLength : ℚ
  freshWeight : ℚ
  school : List Nat
deriving DecidableEq

/-- Stamp a raw growth row with its sheet name. -/
def stampGrowth (s : List Nat) (r : RawGrowthRow) : GrowthRow :=
  ⟨r.leafCount, r.shootLength, r.freshWeight, s⟩

/-- A directory entry: its name plus its content under both parse
interpretations (`pd.read_csv` and `pd.ExcelFile`); parsing itself is
abstracted away. -/
structure DirEntry where
  name : List Nat
  csvRows : List RawEnvRow
  xlsxSheets : List (List Nat × List RawGrowthRow)
deriving DecidableEq

/-- Keys of an association list (the model of a Python dict). -/
def keys {α : Type} (d : List (List Nat × α)) : List (List Nat) :=
  d.map Prod.fst

/-- Python dict assignment `d[k] = v`: replace in place, else append. -/
def dictInsert {α : Type} (k : List Nat) (v : α) :
    List (List Nat × α) → List (List Nat × α)
  | [] => [(k, v)]
  | (k', v') :: rest =>
    if k' = k then (k, v) :: rest else (k', v') :: dictInsert k v rest

/-- The inner loop of `load_environment_data`: try every school of
`SCHOOL_EC` against the normalized file name; on a match, store the file's
rows (stamped with the school) under that school's key.  Note the source
has no `break`: every matching school receives the file. -/
def matchSchools (f : DirEntry) (name : List Nat) :
    List (List Nat) → List (List Nat × List EnvRow) → List (List Nat × List EnvRow)
  | [], data => data
  | s :: ss, data =>
    matchSchools f name ss
      (if containsCp name (normalize s) then
        dictInsert s (f.csvRows.map (stampEnv s)) data
      else data)

/-- Process one directory entry of `load_environment_data`: skip non-CSV
names, otherwise match the normalized name against all schools. -/
def processFile (data : List (List Nat × List EnvRow)) (f : DirEntry) :
    List (List Nat × List EnvRow) :=
  if endsWithCsv f.name then matchSchools f (normalize f.name) SCHOOLS data
  else data

/-- `load_environment_data` of `main.py`: `none` models a missing `data`
directory (the function reports and returns the empty dict). -/
def loadEnvironmentData : Option (List DirEntry) → List (List Nat × List EnvRow)
  | none => []
  | some files => files.foldl processFile []

/-- First directory entry with an `.xlsx` extension (the source loop
`break`s on the first hit). -/
def firstXlsx : List DirEntry → Option DirEntry
  | [] => none
  | f :: rest => if endsWithXlsx f.name then some f else firstXlsx rest

/-- Concatenate all sheets of the workbook, stamping each row with its
sheet name (models the `pd.concat` of per-sheet frames). -/
def concatSheets : List (List Nat × List RawGrowthRow) → List GrowthRow
  | [] => []
  | (s, rows) :: rest => rows.map (stampGrowth s) ++ concatSheets rest

/-- `load_growth_data` of `main.py`: empty on a missing directory or when
no `.xlsx` entry exists; otherwise every sheet of the first workbook is
parsed and concatenated in sheet order. -/
def loadGrowthData : Option (List DirEntry) → List GrowthRow
  | none => []
  | some files =>
    match firstXlsx files with
    | none => []
    | some f => concatSheets f.xlsxSheets

/-- Derived target EC of a growth row:
`growth_df["EC"] = growth_df["학교"].map(SCHOOL_EC)` (`none` = NaN). -/
def growthEC (r : GrowthRow) : Option ℚ := SCHOOL_EC r.school

/-- Insert into a strictly ascending list of keys without duplicating
(the key order `pandas.groupby` produces). -/
def insertEC (e : ℚ) : List ℚ → List ℚ
  | [] => [e]
  | x :: xs => if e = x then x :: xs else if e < x then e :: x :: xs else x :: insertEC e xs

/-- The ascending distinct EC group keys of `growth_df.groupby("EC")`;
rows whose school is unknown map to NaN and form no group. -/
def ecKeys (l : List GrowthRow) : List ℚ :=
  (l.filterMap growthEC).foldl (fun ks e => insertEC e ks) []

/-- Mean fresh weight of the EC group `e`
(`growth_df.groupby("EC")["생중량(g)"].mean()` at key `e`). -/
def meanWeight (l : List GrowthRow) (e : ℚ) : ℚ :=
  let grp := l.filter (fun r => decide (growthEC r = some e))
  ((grp.map (fun r => r.freshWeight)).sum) / (grp.length : ℚ)

/-- The `mean_weight` table: EC keys ascending with their mean weights. -/
def meanWeightTable (l : List GrowthRow) : List (ℚ × ℚ) :=
  (ecKeys l).map (fun e => (e, meanWeight l e))

/-- `Series.idxmax` scan: index (key) of the first occurrence of the
maximum value; a later value replaces only when strictly greater. -/
def idxmaxAux : ℚ → ℚ → List (ℚ × ℚ) → ℚ
  | k, _, [] => k
  | k, v, (k', v') :: rest =>
    if v < v' then idxmaxAux k' v' rest else idxmaxAux k v rest

/-- The best-EC aggregation of `main.py` (tab 3):
`best_ec = mean_weight.loc[mean_weight["생중량(g)"].idxmax(), "EC"]`.
On an empty table, `idxmax` raises `ValueError`, modelled as `Except.error`. -/
def bestEC (l : List GrowthRow) : Except String ℚ :=
  match meanWeightTable l with
  | [] => Except.error "attempt to get argmax of an empty sequence"
  | (k, v) :: rest => Except.ok (idxmaxAux k v rest)

/-- The hard-stop guard of `main.py` line 122:
`if not env_data or growth_df.empty: st.stop()`. -/
def dashboardHalts (env : List (List Nat × List EnvRow)) (growth : List GrowthRow) : Bool :=
  env.isEmpty || growth.isEmpty

/-- Arithmetic mean of one numeric field over a row collection. -/
def fieldMean (rows : List EnvRow) (field : EnvRow → ℚ) : ℚ :=
  ((rows.map field).sum) / (rows.length : ℚ)

/-- The distinct group keys occurring in a tag list, first occurrence kept. -/
def dedupFirst : List (List Nat) → List (List Nat)
  | [] => []
  | k :: rest => k :: (dedupFirst rest).filter (fun x => !(x == k))

/-- `env_all.groupby("학교")[...].mean()` for one field: the keyed result
table, one (school, mean) row per school occurring in the data; a school
with no rows yields no row.  The keyed table is modelled as an association
list; the display order of its rows is not modelled (pandas sorts keys),
so order-independence is stated as permutation of the result rows. -/
def groupMeans (rows : List EnvRow) (field : EnvRow → ℚ) : List (List Nat × ℚ) :=
  (dedupFirst (rows.map (fun r => r.school))).map
    (fun k => (k, fieldMean (rows.filter (fun r => r.school == k)) field))

/-! ### Facts about the Hangul composition scan -/

theorem isL_iff {c : Nat} : isL c = true ↔ (4352 ≤ c ∧ c ≤ 4370) := by
  simp [isL]

theorem isV_iff {c : Nat} : isV c = true ↔ (4449 ≤ c ∧ c ≤ 4469) := by
  simp [isV]

theorem isT_iff {c : Nat} : isT c = true ↔ (4520 ≤ c ∧ c ≤ 4546) := by
  simp [isT]

theorem isLVSyl_iff {c : Nat} :
    isLVSyl c = true ↔ (44032 ≤ c ∧ c < 55204 ∧ (c - 44032) % 28 = 0) := by
  simp [isLVSyl, isSyl, and_assoc]

theorem isL_false_of_large {c : Nat} (h : 4371 ≤ c) : isL c = false := by
  simp [isL]; omega

theorem isV_false_of_jamoL {c : Nat} (h : c ≤ 4370) : isV c = false := by
  simp [isV]; omega

theorem isT_false_of_jamoL {c : Nat} (h : c ≤ 4370) : isT c = false := by
  simp [isT]; omega

theorem composeAux_cons_LV {p c : Nat} (l : List Nat)
    (h1 : isL p = true) (h2 : isV c = true) :
    composeAux p (c :: l) =
      composeAux (44032 + ((p - 4352) * 21 + (c - 4449)) * 28) l := by
  simp [composeAux, h1, h2]

theorem composeAux_cons_T {p c : Nat} (l : List Nat)
    (h1 : isLVSyl p = true) (h2 : isT c = true) :
    composeAux p (c :: l) = composeAux (p + (c - 4519)) l := by
  have hL : isL p = false :=
    isL_false_of_large (by have := (isLVSyl_iff.mp h1).1; omega)
  simp [composeAux, hL, h1, h2]

theorem composeAux_cons_none {p c : Nat} (l : List Nat)
    (h1 : (isL p && isV c) = false) (h2 : (isLVSyl p && isT c) = false) :
    composeAux p (c :: l) = p :: composeAux c l := by
  simp [composeAux, h1, h2]


theorem composeHangul_cons_cons (a b : Nat) (t : List Nat) :
    composeHangul (a :: b :: t) = composeAux a (b :: t) := rfl

set_option maxRecDepth 4000 in
/-- Decomposing one code point and recomposing in front of any tail is the
same as scanning from that code point. -/
theorem composeHangul_decomposeChar (c : Nat) (l : List Nat) :
    composeHangul (decomposeChar c ++ l) = composeAux c l := by
  by_cases hs : 44032 ≤ c ∧ c < 55204
  · have hb : c - 44032 < 11172 := by omega
    by_cases ht : (c - 44032) % 28 = 0
    · rw [show decomposeChar c =
          [4352 + (c - 44032) / 588, 4449 + ((c - 44032) % 588) / 28] by
        simp [decomposeChar, hs, ht]]
      simp only [List.cons_append, List.nil_append]
      rw [composeHangul_cons_cons]
      rw [composeAux_cons_LV l (by rw [isL_iff]; exact ⟨by omega, by omega⟩)
        (by rw [isV_iff]; exact ⟨by omega, by omega⟩)]
      have he : 44032 + ((4352 + (c - 44032) / 588 - 4352) * 21 +
          (4449 + ((c - 44032) % 588) / 28 - 4449)) * 28 = c := by omega
      rw [he]
    · rw [show decomposeChar c =
          [4352 + (c - 44032) / 588, 4449 + ((c - 44032) % 588) / 28,
           4519 + (c - 44032) % 28] by
        simp [decomposeChar, hs, ht]]
      simp only [List.cons_append, List.nil_append]
      rw [composeHangul_cons_cons]
      rw [composeAux_cons_LV _ (by rw [isL_iff]; exact ⟨by omega, by omega⟩)
        (by rw [isV_iff]; exact ⟨by omega, by omega⟩)]
      have he : 44032 + ((4352 + (c - 44032) / 588 - 4352) * 21 +
          (4449 + ((c - 44032) % 588) / 28 - 4449)) * 28 = c - (c - 44032) % 28 := by
        omega
      rw [he]
      rw [composeAux_cons_T l
        (by rw [isLVSyl_iff]; exact ⟨by omega, by omega, by omega⟩)
        (by rw [isT_iff]; exact ⟨by omega, by omega⟩)]
      have he2 : c - (c - 44032) % 28 + (4519 + (c - 44032) % 28 - 4519) = c := by omega
      rw [he2]
  · rw [show decomposeChar c = [c] by simp [decomposeChar, hs]]
    rfl



theorem decomposeHangul_cons (a : Nat) (t : List Nat) :
    decomposeHangul (a :: t) = decomposeChar a ++ decomposeHangul t := rfl

theorem decomposeChar_inert {c : Nat} (h : ¬(44032 ≤ c ∧ c < 55204)) :
    decomposeChar c = [c] := by
  rw [decomposeChar, if_neg h]

theorem isV_false_of_syl {c : Nat} (h : 44032 ≤ c) : isV c = false := by
  simp [isV]; omega

theorem isT_false_of_syl {c : Nat} (h : 44032 ≤ c) : isT c = false := by
  simp [isT]; omega

/-- Composing an L jamo with a V jamo and decomposing gives the pair back. -/
theorem decomposeChar_LV {p c : Nat} (hp : 4352 ≤ p ∧ p ≤ 4370)
    (hc : 4449 ≤ c ∧ c ≤ 4469) :
    decomposeChar (44032 + ((p - 4352) * 21 + (c - 4449)) * 28) = [p, c] := by
  rw [decomposeChar, if_pos (by constructor <;> omega), if_pos (by omega)]
  rw [show 4352 + (44032 + ((p - 4352) * 21 + (c - 4449)) * 28 - 44032) / 588 = p by
    omega]
  rw [show 4449 + (44032 + ((p - 4352) * 21 + (c - 4449)) * 28 - 44032) % 588 / 28 = c by
    omega]

/-- Attaching a trailing jamo to an LV syllable and decomposing appends it. -/
theorem decomposeChar_addT {p c : Nat}
    (hp : 44032 ≤ p ∧ p < 55204 ∧ (p - 44032) % 28 = 0)
    (hc : 4520 ≤ c ∧ c ≤ 4546) :
    decomposeChar (p + (c - 4519)) = decomposeChar p ++ [c] := by
  have hlt : p + (c - 4519) < 55204 := by omega
  rw [decomposeChar, if_pos (by constructor <;> omega), if_neg (by omega)]
  rw [decomposeChar, if_pos (by constructor <;> omega), if_pos (by omega)]
  rw [show 4352 + (p + (c - 4519) - 44032) / 588 = 4352 + (p - 44032) / 588 by omega]
  rw [show 4449 + (p + (c - 4519) - 44032) % 588 / 28 = 4449 + (p - 44032) % 588 / 28 by
    omega]
  rw [show 4519 + (p + (c - 4519) - 44032) % 28 = c by omega]
  rfl

/-- Composing after full decomposition is the same as composing directly. -/
theorem composeAux_decompose : ∀ (l : List Nat) (c : Nat),
    composeHangul (decomposeChar c ++ decomposeHangul l) = composeAux c l
  | [], c => by
    rw [show decomposeHangul [] = [] from rfl]
    exact composeHangul_decomposeChar c []
  | c2 :: rest, c => by
    rw [decomposeHangul_cons, composeHangul_decomposeChar]
    by_cases hsyl : 44032 ≤ c2 ∧ c2 < 55204
    · have hex : ∃ tl, decomposeChar c2 = (4352 + (c2 - 44032) / 588) :: tl := by
        by_cases ht : (c2 - 44032) % 28 = 0
        · exact ⟨_, by rw [decomposeChar, if_pos hsyl, if_pos ht]⟩
        · exact ⟨_, by rw [decomposeChar, if_pos hsyl, if_neg ht]⟩
      obtain ⟨tl, htl⟩ := hex
      have hLb : 4352 + (c2 - 44032) / 588 ≤ 4370 := by omega
      rw [htl]
      simp only [List.cons_append]
      rw [composeAux_cons_none _
        (by rw [isV_false_of_jamoL hLb]; simp)
        (by rw [isT_false_of_jamoL hLb]; simp)]
      rw [composeAux_cons_none rest
        (by rw [isV_false_of_syl hsyl.1]; simp)
        (by rw [isT_false_of_syl hsyl.1]; simp)]
      have hstep : composeAux (4352 + (c2 - 44032) / 588) (tl ++ decomposeHangul rest) =
          composeHangul (decomposeChar c2 ++ decomposeHangul rest) := by
        rw [htl]
        rfl
      rw [hstep, composeAux_decompose rest c2]
    · rw [decomposeChar_inert hsyl]
      simp only [List.cons_append, List.nil_append]
      by_cases h1 : isL c = true ∧ isV c2 = true
      · rw [composeAux_cons_LV _ h1.1 h1.2, composeAux_cons_LV rest h1.1 h1.2]
        rw [← composeHangul_decomposeChar _ (decomposeHangul rest)]
        exact composeAux_decompose rest _
      · by_cases h2 : isLVSyl c = true ∧ isT c2 = true
        · rw [composeAux_cons_T _ h2.1 h2.2, composeAux_cons_T rest h2.1 h2.2]
          rw [← composeHangul_decomposeChar _ (decomposeHangul rest)]
          exact composeAux_decompose rest _
        · have hb1 : (isL c && isV c2) = false := by
            cases hx : isL c <;> cases hy : isV c2 <;> simp_all
          have hb2 : (isLVSyl c && isT c2) = false := by
            cases hx : isLVSyl c <;> cases hy : isT c2 <;> simp_all
          rw [composeAux_cons_none _ hb1 hb2, composeAux_cons_none rest hb1 hb2]
          rw [show composeAux c2 (decomposeHangul rest) =
            composeHangul (decomposeChar c2 ++ decomposeHangul rest) by
              rw [decomposeChar_inert hsyl]
              rfl]
          rw [composeAux_decompose rest c2]



/-- Decomposing the result of a composition scan recovers the decomposition
of the input. -/
theorem decompose_composeAux : ∀ (l : List Nat) (p : Nat),
    decomposeHangul (composeAux p l) = decomposeChar p ++ decomposeHangul l
  | [], p => by
    rw [show composeAux p [] = [p] from rfl, decomposeHangul_cons]
  | c :: rest, p => by
    by_cases h1 : isL p = true ∧ isV c = true
    · rw [composeAux_cons_LV rest h1.1 h1.2, decompose_composeAux rest _]
      rw [decomposeChar_LV (isL_iff.mp h1.1) (isV_iff.mp h1.2)]
      have hp := isL_iff.mp h1.1
      have hc := isV_iff.mp h1.2
      rw [decomposeHangul_cons, @decomposeChar_inert p (by omega),
        @decomposeChar_inert c (by omega)]
      rfl
    · by_cases h2 : isLVSyl p = true ∧ isT c = true
      · rw [composeAux_cons_T rest h2.1 h2.2, decompose_composeAux rest _]
        rw [decomposeChar_addT (isLVSyl_iff.mp h2.1) (isT_iff.mp h2.2)]
        have hc := isT_iff.mp h2.2
        rw [decomposeHangul_cons, @decomposeChar_inert c (by omega)]
        simp only [List.append_assoc, List.singleton_append]
      · have hb1 : (isL p && isV c) = false := by
          cases hx : isL p <;> cases hy : isV c <;> simp_all
        have hb2 : (isLVSyl p && isT c) = false := by
          cases hx : isLVSyl p <;> cases hy : isT c <;> simp_all
        rw [composeAux_cons_none rest hb1 hb2, decomposeHangul_cons,
          show decomposeHangul (composeAux c rest) =
            decomposeChar c ++ decomposeHangul rest from decompose_composeAux rest c,
          decomposeHangul_cons]

/-- Composing a fully decomposed string gives its composition: the model of
NFC is insensitive to prior decomposition. -/
theorem composeHangul_decomposeHangul : ∀ l : List Nat,
    composeHangul (decomposeHangul l) = composeHangul l
  | [] => rfl
  | c :: rest => by
    rw [decomposeHangul_cons]
    exact composeAux_decompose rest c

/-- Decomposing a composed string gives the original decomposition. -/
theorem decomposeHangul_composeHangul : ∀ l : List Nat,
    decomposeHangul (composeHangul l) = decomposeHangul l
  | [] => rfl
  | c :: rest => by
    rw [show composeHangul (c :: rest) = composeAux c rest from rfl]
    rw [decompose_composeAux rest c, decomposeHangul_cons]

/-- The composition scan is idempotent. -/
theorem composeHangul_idem (l : List Nat) :
    composeHangul (composeHangul l) = composeHangul l := by
  conv_lhs => rw [← composeHangul_decomposeHangul (composeHangul l)]
  rw [decomposeHangul_composeHangul, composeHangul_decomposeHangul]



/-- Last code point of a list (0 for the empty list). -/
def lastCh : List Nat → Nat
  | [] => 0
  | [x] => x
  | _ :: y :: t => lastCh (y :: t)

theorem lastCh_cons_of_ne_nil (x : Nat) {l : List Nat} (h : l ≠ []) :
    lastCh (x :: l) = lastCh l := by
  cases l with
  | nil => exact absurd rfl h
  | cons y t => rfl

theorem composeAux_ne_nil : ∀ (l : List Nat) (p : Nat), composeAux p l ≠ []
  | [], p => by simp [composeAux]
  | c :: rest, p => by
    by_cases h1 : isL p = true ∧ isV c = true
    · rw [composeAux_cons_LV rest h1.1 h1.2]
      exact composeAux_ne_nil rest _
    · by_cases h2 : isLVSyl p = true ∧ isT c = true
      · rw [composeAux_cons_T rest h2.1 h2.2]
        exact composeAux_ne_nil rest _
      · have hb1 : (isL p && isV c) = false := by
          cases hx : isL p <;> cases hy : isV c <;> simp_all
        have hb2 : (isLVSyl p && isT c) = false := by
          cases hx : isLVSyl p <;> cases hy : isT c <;> simp_all
        rw [composeAux_cons_none rest hb1 hb2]
        exact List.cons_ne_nil p _

/-- The scan distributes over an append whose right part cannot interact
with the last code point emitted for the left part. -/
theorem composeAux_append : ∀ (A : List Nat) (p : Nat) (B : List Nat),
    (∀ h t, B = h :: t → compPairB (lastCh (composeAux p A)) h = false) →
    composeAux p (A ++ B) = composeAux p A ++ composeHangul B
  | [], p, B => by
    intro hB
    cases B with
    | nil => rfl
    | cons h t =>
      have hcp := hB h t rfl
      rw [show lastCh (composeAux p []) = p from rfl] at hcp
      simp only [compPairB, Bool.or_eq_false_iff] at hcp
      rw [List.nil_append,
        show composeAux p [] = [p] from rfl,
        composeAux_cons_none t hcp.1 hcp.2]
      rfl
  | c :: rest, p, B => by
    intro hB
    by_cases h1 : isL p = true ∧ isV c = true
    · rw [List.cons_append, composeAux_cons_LV _ h1.1 h1.2,
        composeAux_cons_LV rest h1.1 h1.2]
      refine composeAux_append rest _ B ?_
      intro h t ht
      have := hB h t ht
      rwa [composeAux_cons_LV rest h1.1 h1.2] at this
    · by_cases h2 : isLVSyl p = true ∧ isT c = true
      · rw [List.cons_append, composeAux_cons_T _ h2.1 h2.2,
          composeAux_cons_T rest h2.1 h2.2]
        refine composeAux_append rest _ B ?_
        intro h t ht
        have := hB h t ht
        rwa [composeAux_cons_T rest h2.1 h2.2] at this
      · have hb1 : (isL p && isV c) = false := by
          cases hx : isL p <;> cases hy : isV c <;> simp_all
        have hb2 : (isLVSyl p && isT c) = false := by
          cases hx : isLVSyl p <;> cases hy : isT c <;> simp_all
        rw [List.cons_append, composeAux_cons_none _ hb1 hb2,
          composeAux_cons_none rest hb1 hb2]
        rw [composeAux_append rest c B ?_, List.cons_append]
        intro h t ht
        have := hB h t ht
        rwa [composeAux_cons_none rest hb1 hb2,
          lastCh_cons_of_ne_nil p (composeAux_ne_nil rest c)] at this

/-- `composeHangul` distributes over an append when the right part cannot
canonically combine with the last code point of the composed left part. -/
theorem composeHangul_append (A B : List Nat) (hA : A ≠ [])
    (hB : ∀ h t, B = h :: t → compPairB (lastCh (composeHangul A)) h = false) :
    composeHangul (A ++ B) = composeHangul A ++ composeHangul B := by
  cases A with
  | nil => exact absurd rfl hA
  | cons c rest => exact composeAux_append rest c B hB

/-- A string starts with itself (plus anything appended). -/
theorem startsWithCp_append_self : ∀ (pat B : List Nat),
    startsWithCp (pat ++ B) pat = true
  | [], B => by simp [startsWithCp]
  | p :: pt, B => by
    rw [List.cons_append]
    simp [startsWithCp, startsWithCp_append_self pt B]

/-- Any explicit decomposition `A ++ pat ++ B` witnesses containment. -/
theorem containsCp_append : ∀ (A pat B : List Nat),
    containsCp (A ++ (pat ++ B)) pat = true
  | [], pat, B => by
    rw [List.nil_append]
    cases pat with
    | nil =>
      cases B with
      | nil => rfl
      | cons h t => simp [containsCp, startsWithCp]
    | cons p pt =>
      rw [List.cons_append]
      simp [containsCp, startsWithCp, startsWithCp_append_self pt B]
  | a :: A', pat, B => by
    rw [List.cons_append]
    simp [containsCp, containsCp_append A' pat B]



/-! ### Facts about the environment loader -/

theorem mem_keys_dictInsert {α : Type} (k : List Nat) (v : α) :
    ∀ (d : List (List Nat × α)) (x : List Nat),
      x ∈ keys (dictInsert k v d) ↔ x = k ∨ x ∈ keys d
  | [], x => by simp [dictInsert, keys]
  | (k', v') :: rest, x => by
    by_cases hk : k' = k
    · subst hk
      simp [dictInsert, keys]
    · rw [dictInsert, if_neg hk]
      simp only [keys, List.map_cons, List.mem_cons]
      rw [show (dictInsert k v rest).map Prod.fst = keys (dictInsert k v rest) from rfl]
      rw [mem_keys_dictInsert k v rest x]
      simp [keys]
      tauto

theorem mem_keys_matchSchools (f : DirEntry) (name : List Nat) :
    ∀ (ss : List (List Nat)) (data : List (List Nat × List EnvRow)) (x : List Nat),
      x ∈ keys (matchSchools f name ss data) ↔
        (x ∈ ss ∧ containsCp name (normalize x) = true) ∨ x ∈ keys data
  | [], data, x => by simp [matchSchools]
  | s :: ss, data, x => by
    rw [matchSchools, mem_keys_matchSchools f name ss _ x]
    by_cases hc : containsCp name (normalize s) = true
    · rw [if_pos hc, mem_keys_dictInsert]
      by_cases hx : x = s
      · subst hx
        simp [hc]
      · simp [hx]
    · rw [if_neg hc]
      by_cases hx : x = s
      · subst hx
        simp [hc]
      · simp [hx]
  termination_by ss => ss.length

theorem mem_keys_foldl (files : List DirEntry) :
    ∀ (data : List (List Nat × List EnvRow)) (x : List Nat),
      x ∈ keys (files.foldl processFile data) ↔
        (∃ f ∈ files, endsWithCsv f.name = true ∧ x ∈ SCHOOLS ∧
          containsCp (normalize f.name) (normalize x) = true) ∨ x ∈ keys data := by
  induction files with
  | nil => intro data x; simp
  | cons f fs ih =>
    intro data x
    rw [List.foldl_cons, ih]
    by_cases hcsv : endsWithCsv f.name = true
    · rw [show processFile data f = matchSchools f (normalize f.name) SCHOOLS data by
        rw [processFile, if_pos hcsv]]
      rw [mem_keys_matchSchools]
      simp only [List.mem_cons]
      constructor
      · rintro (⟨g, hg, h⟩ | (⟨hmem, hcont⟩ | hdata))
        · exact Or.inl ⟨g, Or.inr hg, h⟩
        · exact Or.inl ⟨f, Or.inl rfl, hcsv, hmem, hcont⟩
        · exact Or.inr hdata
      · rintro (⟨g, hg | hg, h⟩ | hdata)
        · subst hg
          exact Or.inr (Or.inl ⟨h.2.1, h.2.2⟩)
        · exact Or.inl ⟨g, hg, h⟩
        · exact Or.inr (Or.inr hdata)
    · rw [show processFile data f = data by rw [processFile, if_neg hcsv]]
      simp only [List.mem_cons]
      constructor
      · rintro (⟨g, hg, h⟩ | hdata)
        · exact Or.inl ⟨g, Or.inr hg, h⟩
        · exact Or.inr hdata
      · rintro (⟨g, hg | hg, h⟩ | hdata)
        · subst hg
          exact absurd h.1 hcsv
        · exact Or.inl ⟨g, hg, h⟩
        · exact Or.inr hdata

/-- Key membership in the loaded environment dict: a school's key is present
iff some CSV entry's normalized name contains the normalized school. -/
theorem mem_keys_loadEnvironmentData (files : List DirEntry) (x : List Nat) :
    x ∈ keys (loadEnvironmentData (some files)) ↔
      ∃ f ∈ files, endsWithCsv f.name = true ∧ x ∈ SCHOOLS ∧
        containsCp (normalize f.name) (normalize x) = true := by
  rw [loadEnvironmentData, mem_keys_foldl]
  simp [keys]



/-- The loader invariant: every stored key is a known school and every
stored row is tagged with its key. -/
def EnvInv (d : List (List Nat × List EnvRow)) : Prop :=
  ∀ p ∈ d, p.1 ∈ SCHOOLS ∧ ∀ r ∈ p.2, r.school = p.1

theorem envInv_dictInsert {d : List (List Nat × List EnvRow)} {k : List Nat}
    {v : List EnvRow} (hd : EnvInv d) (hk : k ∈ SCHOOLS)
    (hv : ∀ r ∈ v, r.school = k) : EnvInv (dictInsert k v d) := by
  induction d with
  | nil =>
    intro p hp
    rw [dictInsert] at hp
    simp only [List.mem_singleton] at hp
    subst hp
    exact ⟨hk, hv⟩
  | cons q rest ih =>
    obtain ⟨k', v'⟩ := q
    intro p hp
    rw [dictInsert] at hp
    by_cases hkk : k' = k
    · rw [if_pos hkk] at hp
      rcases List.mem_cons.mp hp with h | h
      · subst h
        exact ⟨hk, hv⟩
      · exact hd _ (List.mem_cons_of_mem _ h)
    · rw [if_neg hkk] at hp
      rcases List.mem_cons.mp hp with h | h
      · subst h
        exact hd _ (List.mem_cons_self _ _)
      · exact ih (fun q hq => hd _ (List.mem_cons_of_mem _ hq)) _ h

theorem envInv_matchSchools (f : DirEntry) (name : List Nat) :
    ∀ (ss : List (List Nat)) (data : List (List Nat × List EnvRow)),
      (∀ s ∈ ss, s ∈ SCHOOLS) → EnvInv data →
      EnvInv (matchSchools f name ss data)
  | [], data => fun _ hd => hd
  | s :: ss, data => by
    intro hss hd
    rw [matchSchools]
    refine envInv_matchSchools f name ss _ (fun x hx => hss x (List.mem_cons_of_mem _ hx)) ?_
    by_cases hc : containsCp name (normalize s) = true
    · rw [if_pos hc]
      refine envInv_dictInsert hd (hss s (List.mem_cons_self _ _)) ?_
      intro r hr
      obtain ⟨raw, _, hraw⟩ := List.mem_map.mp hr
      rw [← hraw]
      rfl
    · rw [if_neg hc]
      exact hd

theorem envInv_foldl (files : List DirEntry) :
    ∀ data : List (List Nat × List EnvRow), EnvInv data →
      EnvInv (files.foldl processFile data) := by
  induction files with
  | nil => exact fun _ h => h
  | cons f fs ih =>
    intro data hd
    rw [List.foldl_cons]
    refine ih _ ?_
    rw [processFile]
    by_cases hcsv : endsWithCsv f.name = true
    · rw [if_pos hcsv]
      exact envInv_matchSchools f (normalize f.name) SCHOOLS data (fun s hs => hs) hd
    · rw [if_neg hcsv]
      exact hd

/-- Every entry of the loaded environment dict is keyed by a known school
and all rows under a key are tagged with exactly that key. -/
theorem loadEnvironmentData_inv (dir : Option (List DirEntry)) :
    EnvInv (loadEnvironmentData dir) := by
  cases dir with
  | none => intro p hp; simp [loadEnvironmentData] at hp
  | some files =>
    rw [loadEnvironmentData]
    exact envInv_foldl files [] (fun p hp => by simp at hp)

/-! ### Empty results of the loaders -/

theorem matchSchools_nomatch (f : DirEntry) (name : List Nat) :
    ∀ (ss : List (List Nat)) (data : List (List Nat × List EnvRow)),
      (∀ s ∈ ss, containsCp name (normalize s) = false) →
      matchSchools f name ss data = data
  | [], data => fun _ => rfl
  | s :: ss, data => by
    intro hss
    rw [matchSchools, if_neg (by rw [hss s (List.mem_cons_self _ _)]; simp)]
    exact matchSchools_nomatch f name ss data
      (fun x hx => hss x (List.mem_cons_of_mem _ hx))

theorem foldl_processFile_nomatch : ∀ (files : List DirEntry)
    (data : List (List Nat × List EnvRow)),
    (∀ f ∈ files, endsWithCsv f.name = true →
      ∀ s ∈ SCHOOLS, containsCp (normalize f.name) (normalize s) = false) →
    files.foldl processFile data = data
  | [], data => fun _ => rfl
  | f :: fs, data => by
    intro hfs
    rw [List.foldl_cons]
    have hf : processFile data f = data := by
      rw [processFile]
      by_cases hcsv : endsWithCsv f.name = true
      · rw [if_pos hcsv]
        exact matchSchools_nomatch f (normalize f.name) SCHOOLS data
          (hfs f (List.mem_cons_self _ _) hcsv)
      · rw [if_neg hcsv]
    rw [hf]
    exact foldl_processFile_nomatch fs data
      (fun g hg => hfs g (List.mem_cons_of_mem _ hg))

theorem loadEnvironmentData_empty (files : List DirEntry)
    (h : ∀ f ∈ files, endsWithCsv f.name = true →
      ∀ s ∈ SCHOOLS, containsCp (normalize f.name) (normalize s) = false) :
    loadEnvironmentData (some files) = [] := by
  rw [loadEnvironmentData]
  exact foldl_processFile_nomatch files [] h

theorem firstXlsx_none (files : List DirEntry)
    (h : ∀ f ∈ files, endsWithXlsx f.name = false) : firstXlsx files = none := by
  induction files with
  | nil => rfl
  | cons f fs ih =>
    rw [firstXlsx, if_neg (by rw [h f (List.mem_cons_self _ _)]; simp)]
    exact ih (fun g hg => h g (List.mem_cons_of_mem _ hg))

theorem loadGrowthData_empty (files : List DirEntry)
    (h : ∀ f ∈ files, endsWithXlsx f.name = false) :
    loadGrowthData (some files) = [] := by
  rw [loadGrowthData]
  rw [firstXlsx_none files h]

/-! ### Shape of the loaded growth dataset -/

theorem mem_concatSheets : ∀ (sheets : List (List Nat × List RawGrowthRow))
    (r : GrowthRow), r ∈ concatSheets sheets ↔
      ∃ s rows, (s, rows) ∈ sheets ∧ ∃ raw ∈ rows, r = stampGrowth s raw
  | [], r => by simp [concatSheets]
  | (s, rows) :: rest, r => by
    rw [concatSheets]
    rw [List.mem_append, mem_concatSheets rest r]
    constructor
    · rintro (h | ⟨s', rows', hmem, raw, hraw, hr⟩)
      · obtain ⟨raw, hraw, hr⟩ := List.mem_map.mp h
        exact ⟨s, rows, List.mem_cons_self _ _, raw, hraw, hr.symm⟩
      · exact ⟨s', rows', List.mem_cons_of_mem _ hmem, raw, hraw, hr⟩
    · rintro ⟨s', rows', hmem, raw, hraw, hr⟩
      rcases List.mem_cons.mp hmem with h | h
      · rw [Prod.ext_iff] at h
        obtain ⟨hs, hrows⟩ := h
        simp only at hs hrows
        subst hs
        subst hrows
        exact Or.inl (List.mem_map.mpr ⟨raw, hraw, hr.symm⟩)
      · exact Or.inr ⟨s', rows', h, raw, hraw, hr⟩



/-! ### Facts about the best-EC aggregation -/

theorem mem_insertEC (e : ℚ) : ∀ (ks : List ℚ) (x : ℚ),
    x ∈ insertEC e ks ↔ x = e ∨ x ∈ ks
  | [], x => by simp [insertEC]
  | k :: ks, x => by
    rw [insertEC]
    by_cases h1 : e = k
    · rw [if_pos h1]
      subst h1
      simp
    · rw [if_neg h1]
      by_cases h2 : e < k
      · rw [if_pos h2]
        simp
      · rw [if_neg h2]
        simp only [List.mem_cons]
        rw [mem_insertEC e ks x]
        tauto

theorem pairwise_insertEC (e : ℚ) : ∀ (ks : List ℚ),
    List.Pairwise (· < ·) ks → List.Pairwise (· < ·) (insertEC e ks)
  | [], _ => by simp [insertEC]
  | k :: ks, h => by
    rw [insertEC]
    obtain ⟨hk, hks⟩ := List.pairwise_cons.mp h
    by_cases h1 : e = k
    · rw [if_pos h1]
      exact h
    · rw [if_neg h1]
      by_cases h2 : e < k
      · rw [if_pos h2]
        exact List.pairwise_cons.mpr
          ⟨fun y hy => by
            rcases List.mem_cons.mp hy with h | h
            · subst h; exact h2
            · exact lt_trans h2 (hk y h), h⟩
      · rw [if_neg h2]
        have hke : k < e := lt_of_le_of_ne (le_of_not_lt h2) (Ne.symm h1)
        refine List.pairwise_cons.mpr ⟨fun y hy => ?_, pairwise_insertEC e ks hks⟩
        rcases (mem_insertEC e ks y).mp hy with h | h
        · subst h; exact hke
        · exact hk y h

theorem mem_foldl_insertEC : ∀ (es : List ℚ) (acc : List ℚ) (x : ℚ),
    x ∈ es.foldl (fun ks e => insertEC e ks) acc ↔ x ∈ es ∨ x ∈ acc
  | [], acc, x => by simp
  | e :: es, acc, x => by
    rw [List.foldl_cons, mem_foldl_insertEC es _ x, mem_insertEC e acc x]
    simp only [List.mem_cons]
    tauto

theorem pairwise_foldl_insertEC : ∀ (es : List ℚ) (acc : List ℚ),
    List.Pairwise (· < ·) acc →
    List.Pairwise (· < ·) (es.foldl (fun ks e => insertEC e ks) acc)
  | [], acc, h => h
  | e :: es, acc, h => by
    rw [List.foldl_cons]
    exact pairwise_foldl_insertEC es _ (pairwise_insertEC e acc h)

/-- An EC value is a group key iff some growth row derives it. -/
theorem mem_ecKeys (l : List GrowthRow) (e : ℚ) :
    e ∈ ecKeys l ↔ ∃ r ∈ l, growthEC r = some e := by
  rw [ecKeys, mem_foldl_insertEC]
  simp [List.mem_filterMap]

theorem pairwise_ecKeys (l : List GrowthRow) :
    List.Pairwise (· < ·) (ecKeys l) :=
  pairwise_foldl_insertEC _ [] (by simp)

/-- Full characterization of the `idxmax` scan over a keyed mean table:
either the seed wins (it is maximal), or the result is the first strictly
greater entry that all later entries fail to beat. -/
theorem idxmaxAux_map_spec (m : ℚ → ℚ) : ∀ (ks : List ℚ) (k : ℚ),
    (idxmaxAux k (m k) (ks.map (fun e => (e, m e))) = k ∧ ∀ e ∈ ks, m e ≤ m k)
    ∨ (∃ pre x post, ks = pre ++ x :: post ∧
        idxmaxAux k (m k) (ks.map (fun e => (e, m e))) = x ∧ m k < m x ∧
        (∀ y ∈ pre, m y < m x) ∧ (∀ y ∈ post, m y ≤ m x))
  | [], k => Or.inl ⟨rfl, by simp⟩
  | e :: ks, k => by
    rw [List.map_cons]
    by_cases hlt : m k < m e
    · rw [show idxmaxAux k (m k) ((e, m e) :: ks.map (fun x => (x, m x))) =
          idxmaxAux e (m e) (ks.map (fun x => (x, m x))) by
        rw [idxmaxAux, if_pos hlt]]
      rcases idxmaxAux_map_spec m ks e with ⟨heq, hall⟩ |
        ⟨pre, x, post, hks, heq, hgt, hpre, hpost⟩
      · exact Or.inr ⟨[], e, ks, rfl, heq, hlt, by simp, hall⟩
      · refine Or.inr ⟨e :: pre, x, post, by rw [hks]; rfl, heq,
          lt_trans hlt hgt, fun y hy => ?_, hpost⟩
        rcases List.mem_cons.mp hy with h | h
        · subst h; exact hgt
        · exact hpre y h
    · rw [show idxmaxAux k (m k) ((e, m e) :: ks.map (fun x => (x, m x))) =
          idxmaxAux k (m k) (ks.map (fun x => (x, m x))) by
        rw [idxmaxAux, if_neg hlt]]
      rcases idxmaxAux_map_spec m ks k with ⟨heq, hall⟩ |
        ⟨pre, x, post, hks, heq, hgt, hpre, hpost⟩
      · refine Or.inl ⟨heq, fun y hy => ?_⟩
        rcases List.mem_cons.mp hy with h | h
        · subst h; exact le_of_not_lt hlt
        · exact hall y h
      · refine Or.inr ⟨e :: pre, x, post, by rw [hks]; rfl, heq, hgt, fun y hy => ?_, hpost⟩
        rcases List.mem_cons.mp hy with h | h
        · subst h; exact lt_of_le_of_lt (le_of_not_lt hlt) hgt
        · exact hpre y h

theorem bestEC_eq_ok (l : List GrowthRow) (k₀ : ℚ) (kt : List ℚ)
    (h : ecKeys l = k₀ :: kt) :
    bestEC l = Except.ok (idxmaxAux k₀ (meanWeight l k₀)
      (kt.map (fun e => (e, meanWeight l e)))) := by
  rw [bestEC, meanWeightTable, h, List.map_cons]

/-- The best-EC aggregation returns the smallest EC key attaining the
maximal mean fresh weight. -/
theorem bestEC_spec (l : List GrowthRow) (e : ℚ) (he : e ∈ ecKeys l)
    (hmax : ∀ x ∈ ecKeys l, meanWeight l x ≤ meanWeight l e)
    (hmin : ∀ x ∈ ecKeys l, meanWeight l x = meanWeight l e → e ≤ x) :
    bestEC l = Except.ok e := by
  rcases hk : ecKeys l with _ | ⟨k₀, kt⟩
  · rw [hk] at he
    exact absurd he (List.not_mem_nil e)
  · have hsort := pairwise_ecKeys l
    rw [hk] at hsort he hmax hmin
    obtain ⟨hk₀, hkt⟩ := List.pairwise_cons.mp hsort
    rw [bestEC_eq_ok l k₀ kt hk]
    rcases idxmaxAux_map_spec (meanWeight l) kt k₀ with ⟨heq, hall⟩ |
      ⟨pre, x, post, hks, heq, hgt, hpre, hpost⟩
    · rw [heq]
      rcases List.mem_cons.mp he with h | h
      · rw [h]
      · exfalso
        have h1 : meanWeight l e ≤ meanWeight l k₀ := hall e h
        have h2 : meanWeight l k₀ ≤ meanWeight l e := hmax k₀ (List.mem_cons_self _ _)
        have h3 : e ≤ k₀ := hmin k₀ (List.mem_cons_self _ _) (le_antisymm h2 h1)
        exact absurd (hk₀ e h) (not_lt.mpr h3)
    · rw [heq]
      have hxmem : x ∈ k₀ :: kt := by
        rw [hks]
        exact List.mem_cons_of_mem _ (List.mem_append_right pre (List.mem_cons_self _ _))
      have hxle : meanWeight l x ≤ meanWeight l e := hmax x hxmem
      rcases List.mem_cons.mp he with h | h
      · exfalso
        subst h
        exact absurd (lt_of_lt_of_le hgt hxle) (lt_irrefl _)
      · rw [hks] at h hkt
        rcases List.mem_append.mp h with h | h
        · exfalso
          exact absurd (lt_of_lt_of_le (hpre e h) hxle) (lt_irrefl _)
        · rcases List.mem_cons.mp h with h | h
          · rw [h]
          · exfalso
            have hxe : x < e := by
              have := (List.pairwise_append.mp hkt).2.1
              exact (List.pairwise_cons.mp this).1 e h
            have h1 : meanWeight l e ≤ meanWeight l x := hpost e h
            have h2 : e ≤ x := hmin x hxmem (le_antisymm hxle h1)
            exact absurd hxe (not_lt.mpr h2)



/-! ### Facts about the per-group means -/

theorem mem_dedupFirst : ∀ (ts : List (List Nat)) (x : List Nat),
    x ∈ dedupFirst ts ↔ x ∈ ts
  | [], x => by simp [dedupFirst]
  | k :: ts, x => by
    rw [dedupFirst]
    simp only [List.mem_cons, List.mem_filter, mem_dedupFirst ts x,
      Bool.not_eq_eq_eq_not, Bool.not_true, beq_eq_false_iff_ne, ne_eq]
    by_cases hx : x = k
    · subst hx; simp
    · simp [hx]

theorem nodup_dedupFirst : ∀ ts : List (List Nat), (dedupFirst ts).Nodup
  | [] => List.nodup_nil
  | k :: ts => by
    rw [dedupFirst]
    refine List.nodup_cons.mpr ⟨fun hmem => ?_, (nodup_dedupFirst ts).filter _⟩
    have := (List.mem_filter.mp hmem).2
    simp at this

theorem mem_groupMeans (rows : List EnvRow) (field : EnvRow → ℚ)
    (k : List Nat) (m : ℚ) :
    (k, m) ∈ groupMeans rows field ↔
      (∃ r ∈ rows, r.school = k) ∧
        m = fieldMean (rows.filter (fun r => r.school == k)) field := by
  rw [groupMeans]
  constructor
  · intro h
    obtain ⟨k', hk', hpair⟩ := List.mem_map.mp h
    rw [Prod.ext_iff] at hpair
    obtain ⟨hk, hm⟩ := hpair
    simp only at hk hm
    subst hk
    refine ⟨?_, hm.symm⟩
    have := (mem_dedupFirst _ _).mp hk'
    obtain ⟨r, hr, hsch⟩ := List.mem_map.mp this
    exact ⟨r, hr, hsch⟩
  · rintro ⟨⟨r, hr, hsch⟩, hm⟩
    refine List.mem_map.mpr ⟨k, ?_, by rw [hm]⟩
    exact (mem_dedupFirst _ _).mpr (List.mem_map.mpr ⟨r, hr, hsch⟩)

theorem nodup_groupMeans (rows : List EnvRow) (field : EnvRow → ℚ) :
    (groupMeans rows field).Nodup := by
  rw [groupMeans]
  exact (nodup_dedupFirst _).map (fun a b hab => congrArg Prod.fst hab)

theorem fieldMean_perm {rows rows' : List EnvRow} (hp : rows.Perm rows')
    (p : EnvRow → Bool) (field : EnvRow → ℚ) :
    fieldMean (rows.filter p) field = fieldMean (rows'.filter p) field := by
  have hf : (rows.filter p).Perm (rows'.filter p) := hp.filter p
  rw [fieldMean, fieldMean, (hf.map field).sum_eq, hf.length_eq]

/-- The per-group mean table is invariant (up to row order) under
permutation of the input readings. -/
theorem groupMeans_perm {rows rows' : List EnvRow} (hp : rows.Perm rows')
    (field : EnvRow → ℚ) :
    (groupMeans rows field).Perm (groupMeans rows' field) := by
  rw [List.perm_ext_iff_of_nodup (nodup_groupMeans rows field)
    (nodup_groupMeans rows' field)]
  rintro ⟨k, m⟩
  rw [mem_groupMeans, mem_groupMeans]
  constructor
  · rintro ⟨⟨r, hr, hsch⟩, hm⟩
    exact ⟨⟨r, hp.mem_iff.mp hr, hsch⟩,
      by rw [hm, fieldMean_perm hp]⟩
  · rintro ⟨⟨r, hr, hsch⟩, hm⟩
    exact ⟨⟨r, hp.mem_iff.mpr hr, hsch⟩,
      by rw [hm, fieldMean_perm hp]⟩

theorem groupMeans_value (rows : List EnvRow) (field : EnvRow → ℚ)
    (k : List Nat) (m : ℚ) (h : (k, m) ∈ groupMeans rows field) :
    m * ((rows.filter (fun r => r.school == k)).length : ℚ) =
      ((rows.filter (fun r => r.school == k)).map field).sum := by
  obtain ⟨⟨r, hr, hsch⟩, hm⟩ := (mem_groupMeans rows field k m).mp h
  have hmem : r ∈ rows.filter (fun r => r.school == k) :=
    List.mem_filter.mpr ⟨hr, by rw [hsch]; simp⟩
  have hlen : ((rows.filter (fun r => r.school == k)).length : ℚ) ≠ 0 := by
    rw [Nat.cast_ne_zero]
    exact fun h0 => absurd (List.length_eq_zero.mp h0 ▸ hmem) (List.not_mem_nil r)
  rw [hm, fieldMean, div_mul_cancel₀ _ hlen]



/-! ### Supporting facts for the claims -/

theorem SCHOOL_EC_eq_none {s : List Nat} (h : s ∉ SCHOOLS) : SCHOOL_EC s = none := by
  rw [SCHOOL_EC]
  rw [if_neg (fun hx => h (by rw [hx]; simp [SCHOOLS]))]
  rw [if_neg (fun hx => h (by rw [hx]; simp [SCHOOLS]))]
  rw [if_neg (fun hx => h (by rw [hx]; simp [SCHOOLS]))]
  rw [if_neg (fun hx => h (by rw [hx]; simp [SCHOOLS]))]

theorem mem_SCHOOLS_iff {s : List Nat} :
    s ∈ SCHOOLS ↔ s = songdo ∨ s = haneul ∨ s = ara ∨ s = dongsan := by
  simp [SCHOOLS]

/-! ### C1 -/

/-- The single directory entry "송도고하늘고.csv", whose name contains two
known identifiers. -/
def c1file : DirEntry :=
  { name := songdo ++ haneul ++ [46, 99, 115, 118]
  , csvRows := []
  , xlsxSheets := [] }

/-- C1 counterexample: a CSV file whose normalized name contains two known
identifiers is stored under BOTH identifiers' keys (the source loop has no
`break`), not only under the first in declaration order. -/
theorem claim1_counterexample :
    containsCp (normalize c1file.name) (normalize songdo) = true ∧
    containsCp (normalize c1file.name) (normalize haneul) = true ∧
    loadEnvironmentData (some [c1file]) = [(songdo, []), (haneul, [])] ∧
    keys (loadEnvironmentData (some [c1file])) ≠ [songdo] := by
  refine ⟨by decide, by decide, by decide, by decide⟩

/-- C1 amended: the loader classifies a file under EVERY identifier whose
normalized text the normalized file name contains: a school's key is
present in the result exactly when some CSV entry matches it, and every
stored row is tagged with the key it is stored under. -/
theorem claim1_amended (files : List DirEntry) (x : List Nat) :
    (x ∈ keys (loadEnvironmentData (some files)) ↔
      ∃ f ∈ files, endsWithCsv f.name = true ∧ x ∈ SCHOOLS ∧
        containsCp (normalize f.name) (normalize x) = true) ∧
    (∀ p ∈ loadEnvironmentData (some files), ∀ r ∈ p.2, r.school = p.1) :=
  ⟨mem_keys_loadEnvironmentData files x,
   fun p hp => (loadEnvironmentData_inv (some files) p hp).2⟩

/-! ### C2 -/

/-- C2 counterexample: on the empty growth collection the best-EC
aggregation raises (`idxmax` on an empty series), modelled as an error
value, rather than returning an empty/neutral result. -/
theorem claim2_counterexample :
    bestEC [] = Except.error "attempt to get argmax of an empty sequence" := rfl

/-- C2 amended: the best-EC aggregation errors on the empty growth-record
collection; the dashboard never reaches it with empty data because the
`st.stop()` guard halts whenever the growth dataset is empty. -/
theorem claim2_amended :
    bestEC [] = Except.error "attempt to get argmax of an empty sequence" ∧
    ∀ env : List (List Nat × List EnvRow), dashboardHalts env [] = true := by
  refine ⟨rfl, fun env => ?_⟩
  rw [dashboardHalts]
  simp [List.isEmpty]

/-! ### C8 -/

/-- C8: a missing data directory or a directory with zero matching files
yields an empty environment mapping and an empty growth collection; both
loaders are total functions, so no exception escapes. -/
theorem claim8_empty_inputs :
    (loadEnvironmentData none = [] ∧ loadGrowthData none = []) ∧
    (∀ files : List DirEntry,
      (∀ f ∈ files, endsWithCsv f.name = true →
        ∀ s ∈ SCHOOLS, containsCp (normalize f.name) (normalize s) = false) →
      loadEnvironmentData (some files) = []) ∧
    (∀ files : List DirEntry,
      (∀ f ∈ files, endsWithXlsx f.name = false) →
      loadGrowthData (some files) = []) :=
  ⟨⟨rfl, rfl⟩, loadEnvironmentData_empty, loadGrowthData_empty⟩

/-- C8 witness: a directory holding one unrelated text file ("a.txt"). -/
theorem claim8_empty_inputs_witness :
    loadEnvironmentData (some [⟨[97, 46, 116, 120, 116], [], []⟩]) = [] ∧
    loadGrowthData (some [⟨[97, 46, 116, 120, 116], [], []⟩]) = [] :=
  ⟨(claim8_empty_inputs.2.1 _ (by decide)),
   (claim8_empty_inputs.2.2 _ (by decide))⟩

/-! ### C10 -/

/-- C10: every key of the loaded environment mapping is one of the fixed
school identifiers, and every row stored under a key carries exactly that
key as its group tag. -/
theorem claim10_env_keys_invariant (dir : Option (List DirEntry))
    (p : List Nat × List EnvRow) (hp : p ∈ loadEnvironmentData dir) :
    p.1 ∈ SCHOOLS ∧ ∀ r ∈ p.2, r.school = p.1 :=
  loadEnvironmentData_inv dir p hp

/-- C10 witness: one CSV entry named "송도고.csv" with a single reading. -/
theorem claim10_env_keys_invariant_witness :
    (songdo, [⟨20, 50, 7, 1, songdo⟩]) ∈
      loadEnvironmentData (some [⟨songdo ++ [46, 99, 115, 118], [⟨20, 50, 7, 1⟩], []⟩]) ∧
    (songdo ∈ SCHOOLS ∧
      ∀ r ∈ [(⟨20, 50, 7, 1, songdo⟩ : EnvRow)], r.school = songdo) :=
  ⟨by decide,
   claim10_env_keys_invariant
     (some [⟨songdo ++ [46, 99, 115, 118], [⟨20, 50, 7, 1⟩], []⟩])
     (songdo, [⟨20, 50, 7, 1, songdo⟩]) (by decide)⟩



/-! ### C5 and C3 -/

/-- C5: with a strict unique maximizer, the best-EC aggregation groups by
derived target EC, takes the mean fresh weight per EC, and returns the EC
whose mean is strictly maximal. -/
theorem claim5_best_by_weight_strict_max (l : List GrowthRow) (e : ℚ)
    (he : e ∈ ecKeys l)
    (hstrict : ∀ x ∈ ecKeys l, x ≠ e → meanWeight l x < meanWeight l e) :
    bestEC l = Except.ok e := by
  refine bestEC_spec l e he (fun x hx => ?_) (fun x hx hxe => ?_)
  · by_cases hxe : x = e
    · rw [hxe]
    · exact le_of_lt (hstrict x hx hxe)
  · by_cases hx' : x = e
    · rw [hx']
    · exact absurd hxe (ne_of_lt (hstrict x hx hx'))

/-- The three-school example of the spec: EC means {1: 5, 2: 8, 4: 3}. -/
def growthEx5 : List GrowthRow :=
  [⟨1, 1, 5, songdo⟩, ⟨1, 1, 8, haneul⟩, ⟨1, 1, 3, ara⟩]

theorem claim5_best_by_weight_strict_max_witness :
    (2:ℚ) ∈ ecKeys growthEx5 ∧ bestEC growthEx5 = Except.ok 2 := by
  have hkeys : ecKeys growthEx5 = [1, 2, 4] := by decide
  have h1 : meanWeight growthEx5 1 = (5 + 0) / ((1:ℕ):ℚ) := rfl
  have h2 : meanWeight growthEx5 2 = (8 + 0) / ((1:ℕ):ℚ) := rfl
  have h4 : meanWeight growthEx5 4 = (3 + 0) / ((1:ℕ):ℚ) := rfl
  rw [add_zero, Nat.cast_one, div_one] at h1 h2 h4
  refine ⟨by decide, claim5_best_by_weight_strict_max growthEx5 2 (by decide) ?_⟩
  intro x hx hne
  rw [hkeys] at hx
  rcases List.mem_cons.mp hx with rfl | hx
  · rw [h1, h2]; decide
  rcases List.mem_cons.mp hx with rfl | hx
  · exact absurd rfl hne
  rcases List.mem_cons.mp hx with rfl | hx
  · rw [h4, h2]; decide
  · exact absurd hx (List.not_mem_nil x)

/-- C3: when several EC values tie at the maximal mean fresh weight, the
aggregation returns the smallest tied EC value (group keys are ascending
and `idxmax` keeps the first maximum). -/
theorem claim3_best_by_weight_tie (l : List GrowthRow) (e : ℚ)
    (he : e ∈ ecKeys l)
    (hmax : ∀ x ∈ ecKeys l, meanWeight l x ≤ meanWeight l e)
    (hmin : ∀ x ∈ ecKeys l, meanWeight l x = meanWeight l e → e ≤ x)
    (htie : ∃ x ∈ ecKeys l, x ≠ e ∧ meanWeight l x = meanWeight l e) :
    bestEC l = Except.ok e :=
  bestEC_spec l e he hmax hmin

/-- EC 1 and EC 2 tied at mean weight 6. -/
def growthEx3 : List GrowthRow :=
  [⟨1, 1, 6, songdo⟩, ⟨1, 1, 6, haneul⟩]

theorem claim3_best_by_weight_tie_witness :
    (1:ℚ) ∈ ecKeys growthEx3 ∧ bestEC growthEx3 = Except.ok 1 := by
  have hkeys : ecKeys growthEx3 = [1, 2] := by decide
  have h1 : meanWeight growthEx3 1 = (6 + 0) / ((1:ℕ):ℚ) := rfl
  have h2 : meanWeight growthEx3 2 = (6 + 0) / ((1:ℕ):ℚ) := rfl
  rw [add_zero, Nat.cast_one, div_one] at h1 h2
  refine ⟨by decide, claim3_best_by_weight_tie growthEx3 1 (by decide) ?_ ?_ ?_⟩
  · intro x hx
    rw [hkeys] at hx
    rcases List.mem_cons.mp hx with rfl | hx
    · exact le_refl _
    rcases List.mem_cons.mp hx with rfl | hx
    · rw [h1, h2]
    · exact absurd hx (List.not_mem_nil x)
  · intro x hx _
    rw [hkeys] at hx
    rcases List.mem_cons.mp hx with rfl | hx
    · exact le_refl _
    rcases List.mem_cons.mp hx with rfl | hx
    · decide
    · exact absurd hx (List.not_mem_nil x)
  · exact ⟨2, by rw [hkeys]; decide, by decide, by rw [h1, h2]⟩



/-! ### C4 -/

/-- A directory whose workbook has one sheet named "X" (not a school). -/
def c4files : List DirEntry :=
  [⟨[103, 46, 120, 108, 115, 120], [], [([88], [⟨1, 2, 3⟩])]⟩]

/-- C4 counterexample: the growth loader tags rows with the raw sheet name;
a sheet named "X" produces a loaded row whose group tag is NOT a known
GroupIdentifier, and the row is kept in the dataset rather than rejected. -/
theorem claim4_counterexample :
    loadGrowthData (some c4files) = [⟨1, 2, 3, [88]⟩] ∧
    (⟨1, 2, 3, [88]⟩ : GrowthRow) ∈ loadGrowthData (some c4files) ∧
    [88] ∉ SCHOOLS := by
  refine ⟨by decide, by decide, by decide⟩

/-- C4 amended: every loaded growth row carries its originating sheet name
as its group tag — which need not belong to the fixed identifier set; rows
with unknown tags stay in the dataset and are excluded only downstream, at
the EC aggregation, where their derived EC is `none` and an EC group key
exists only for rows whose tag maps to an EC. -/
theorem claim4_growth_tags (files : List DirEntry) (f : DirEntry)
    (hf : firstXlsx files = some f) :
    (∀ r ∈ loadGrowthData (some files), ∃ sh ∈ f.xlsxSheets, r.school = sh.1) ∧
    (∀ r : GrowthRow, r.school ∉ SCHOOLS → growthEC r = none) ∧
    (∀ (l : List GrowthRow) (e : ℚ),
      e ∈ ecKeys l ↔ ∃ r ∈ l, growthEC r = some e) := by
  refine ⟨fun r hr => ?_, fun r hr => ?_, fun l e => mem_ecKeys l e⟩
  · rw [loadGrowthData, hf] at hr
    obtain ⟨s, rows, hmem, raw, _, hr⟩ := (mem_concatSheets f.xlsxSheets r).mp hr
    exact ⟨(s, rows), hmem, by rw [hr]; rfl⟩
  · rw [growthEC]
    exact SCHOOL_EC_eq_none hr

theorem claim4_growth_tags_witness :
    firstXlsx c4files = some ⟨[103, 46, 120, 108, 115, 120], [], [([88], [⟨1, 2, 3⟩])]⟩ ∧
    (∀ r ∈ loadGrowthData (some c4files),
      ∃ sh ∈ (⟨[103, 46, 120, 108, 115, 120], [], [([88], [⟨1, 2, 3⟩])]⟩ : DirEntry).xlsxSheets,
        r.school = sh.1) :=
  ⟨by decide,
   (claim4_growth_tags c4files ⟨[103, 46, 120, 108, 115, 120], [], [([88], [⟨1, 2, 3⟩])]⟩
     (by decide)).1⟩

/-! ### C9 -/

/-- C9: `group_means` returns one row per group present in the readings
(an absent group yields no row), each row holding the arithmetic mean of
the requested field over that group's readings, and the result is
independent of the input order (permuting the readings permutes the rows
of the keyed table). -/
theorem claim9_group_means (rows rows' : List EnvRow) (field : EnvRow → ℚ)
    (hperm : rows.Perm rows') :
    (∀ k : List Nat,
      (∃ m, (k, m) ∈ groupMeans rows field) ↔ ∃ r ∈ rows, r.school = k) ∧
    (∀ (k : List Nat) (m : ℚ), (k, m) ∈ groupMeans rows field →
      m * ((rows.filter (fun r => r.school == k)).length : ℚ) =
        ((rows.filter (fun r => r.school == k)).map field).sum) ∧
    (groupMeans rows field).Perm (groupMeans rows' field) := by
  refine ⟨fun k => ?_, groupMeans_value rows field, groupMeans_perm hperm field⟩
  constructor
  · rintro ⟨m, hm⟩
    exact ((mem_groupMeans rows field k m).mp hm).1
  · intro hex
    exact ⟨_, (mem_groupMeans rows field k _).mpr ⟨hex, rfl⟩⟩

/-- Readings for groups "A" (mean temperature 20) and "B" (mean 25). -/
def envRowsA : List EnvRow := [⟨20, 0, 0, 0, [65]⟩, ⟨25, 0, 0, 0, [66]⟩]

/-- The same readings in the opposite order. -/
def envRowsB : List EnvRow := [⟨25, 0, 0, 0, [66]⟩, ⟨20, 0, 0, 0, [65]⟩]

theorem claim9_group_means_witness :
    envRowsA.Perm envRowsB ∧
    (groupMeans envRowsA (fun r => r.temperature)).Perm
      (groupMeans envRowsB (fun r => r.temperature)) ∧
    groupMeans envRowsA (fun r => r.temperature) = [([65], 20), ([66], 25)] := by
  refine ⟨by decide,
    (claim9_group_means envRowsA envRowsB (fun r => r.temperature) (by decide)).2.2, ?_⟩
  have h1 : groupMeans envRowsA (fun r => r.temperature) =
      [([65], (20 + 0) / ((1:ℕ):ℚ)), ([66], (25 + 0) / ((1:ℕ):ℚ))] := rfl
  rw [h1, add_zero, add_zero, Nat.cast_one, div_one, div_one]



/-! ### C6 -/

/-- C6: the Normalizer is idempotent, and canonically equivalent inputs
(equal NFD decompositions, e.g. composed vs decomposed forms of the same
text) normalize to identical output. -/
theorem claim6_normalizer (s s₁ s₂ : List Nat)
    (h : decomposeHangul s₁ = decomposeHangul s₂) :
    normalize (normalize s) = normalize s ∧ normalize s₁ = normalize s₂ := by
  refine ⟨composeHangul_idem s, ?_⟩
  rw [normalize, normalize, ← composeHangul_decomposeHangul s₁,
    ← composeHangul_decomposeHangul s₂, h]

theorem claim6_normalizer_witness :
    decomposeHangul haneul = decomposeHangul (decomposeHangul haneul) ∧
    (normalize (normalize (decomposeHangul songdo)) =
        normalize (decomposeHangul songdo) ∧
      normalize haneul = normalize (decomposeHangul haneul)) :=
  ⟨by decide,
   claim6_normalizer (decomposeHangul songdo) haneul (decomposeHangul haneul)
     (by decide)⟩

/-! ### C7 -/

theorem compPairB_false_of_not_VT {a h : Nat} (hV : isV h = false)
    (hT : isT h = false) : compPairB a h = false := by
  simp [compPairB, hV, hT]

theorem compPairB_go (h : Nat) : compPairB 44256 h = isT h := by
  rw [compPairB, show isL 44256 = false from rfl,
    show isLVSyl 44256 = true from rfl]
  simp

/-- If a CSV entry's name is `pre ++ enc ++ post` where `enc` composes to a
school name, starts with a code point that cannot combine leftward, and
`post` does not start with a trailing jamo, the school's key is loaded. -/
theorem school_key_of_embedded (files : List DirEntry) (f : DirEntry)
    (s pre enc post : List Nat)
    (hs : s ∈ SCHOOLS) (hf : f ∈ files)
    (hname : f.name = pre ++ (enc ++ post))
    (hcsv : endsWithCsv f.name = true)
    (henc : composeHangul enc = s)
    (hennil : enc ≠ [])
    (hhead : ∀ h t, enc = h :: t → isV h = false ∧ isT h = false)
    (hpost : ∀ c t, post = c :: t → isT c = false) :
    s ∈ keys (loadEnvironmentData (some files)) := by
  rw [mem_keys_loadEnvironmentData]
  refine ⟨f, hf, hcsv, hs, ?_⟩
  have hns : normalize s = s := by
    rcases mem_SCHOOLS_iff.mp hs with rfl | rfl | rfl | rfl <;> decide
  have hlast : lastCh s = 44256 := by
    rcases mem_SCHOOLS_iff.mp hs with rfl | rfl | rfl | rfl <;> decide
  have hsplit2 : composeHangul (enc ++ post) = s ++ composeHangul post := by
    rw [composeHangul_append enc post hennil ?_, henc]
    intro c t hct
    rw [henc, hlast, compPairB_go c]
    exact hpost c t hct
  have hsplit1 : normalize (pre ++ (enc ++ post)) =
      composeHangul pre ++ composeHangul (enc ++ post) := by
    cases pre with
    | nil => rw [normalize, List.nil_append]; rfl
    | cons p pt =>
      rw [normalize]
      refine composeHangul_append (p :: pt) (enc ++ post) (List.cons_ne_nil p pt) ?_
      intro h t hht
      cases enc with
      | nil => exact absurd rfl hennil
      | cons e0 et =>
        rw [List.cons_append] at hht
        obtain ⟨hh, _⟩ := List.cons.injEq .. ▸ hht
        obtain ⟨hV, hT⟩ := hhead e0 et rfl
        rw [hh] at hV hT
        exact compPairB_false_of_not_VT hV hT
  rw [hname, hns, hsplit1, hsplit2]
  exact containsCp_append (composeHangul pre) s (composeHangul post)

/-- C7 amended: a delimited file whose name embeds a known identifier in
either composed (NFC) or decomposed (NFD) form is classified into that
identifier's group, PROVIDED the code point immediately following the
embedded identifier is not a Hangul trailing-consonant jamo (otherwise
normalization composes it onto the identifier's final syllable and the
match is destroyed — see the counterexample). -/
theorem claim7_unicode_classification (files : List DirEntry) (f : DirEntry)
    (s pre enc post : List Nat)
    (hs : s ∈ SCHOOLS) (hf : f ∈ files)
    (henc : enc = s ∨ enc = decomposeHangul s)
    (hname : f.name = pre ++ (enc ++ post))
    (hcsv : endsWithCsv f.name = true)
    (hpost : ∀ c t, post = c :: t → isT c = false) :
    s ∈ keys (loadEnvironmentData (some files)) := by
  refine school_key_of_embedded files f s pre enc post hs hf hname hcsv ?_ ?_ ?_ hpost
  · rcases mem_SCHOOLS_iff.mp hs with rfl | rfl | rfl | rfl <;>
      rcases henc with rfl | rfl <;> decide
  · rcases mem_SCHOOLS_iff.mp hs with rfl | rfl | rfl | rfl <;>
      rcases henc with rfl | rfl <;> decide
  · rcases mem_SCHOOLS_iff.mp hs with rfl | rfl | rfl | rfl <;>
      rcases henc with rfl | rfl <;>
      (intro h t hht; injection hht with h1 h2; subst h1; decide)

/-- The decomposed form of "하늘고" in a CSV file name: classified. -/
def c7fileNfd : DirEntry :=
  ⟨decomposeHangul haneul ++ [46, 99, 115, 118], [], []⟩

theorem claim7_unicode_classification_witness :
    haneul ∈ keys (loadEnvironmentData (some [c7fileNfd])) :=
  claim7_unicode_classification [c7fileNfd] c7fileNfd haneul []
    (decomposeHangul haneul) [46, 99, 115, 118]
    (by decide) (by decide) (Or.inr rfl) rfl (by decide)
    (by intro c t hct; injection hct with h1 _; subst h1; decide)

/-- "하늘고" + U+11A8 + ".csv", in NFC and in NFD spelling. -/
def c7nameNfcT : List Nat := haneul ++ [4520] ++ [46, 99, 115, 118]

/-- Same file name with the identifier decomposed. -/
def c7nameNfdT : List Nat := decomposeHangul haneul ++ [4520] ++ [46, 99, 115, 118]

/-- C7 counterexample: these CSV file names embed the identifier "하늘고"
(in NFC and NFD form respectively) as a raw substring, yet the loader
classifies neither: the trailing jamo U+11A8 composes onto the final
syllable under NFC ("하늘고" becomes "하늘곡"), so the containment test
fails and the returned mapping is empty. -/
theorem claim7_counterexample :
    (containsCp c7nameNfcT haneul = true ∧ endsWithCsv c7nameNfcT = true ∧
      loadEnvironmentData (some [⟨c7nameNfcT, [], []⟩]) = []) ∧
    (containsCp c7nameNfdT (decomposeHangul haneul) = true ∧
      endsWithCsv c7nameNfdT = true ∧
      loadEnvironmentData (some [⟨c7nameNfdT, [], []⟩]) = []) := by
  refine ⟨⟨by decide, by decide, by decide⟩, ⟨by decide, by decide, by decide⟩⟩


end PolarPlant
